import Mathlib

/-!
Shallow embedding of the `imgx` pixel-transformation engine (`src/ImgUtil.py`)
and proofs about the claims of its specification.

Modelling conventions:
* a PIL RGB image is a `PixBuf`: declared `width`/`height` together with the
  row-major pixel contents (`data[y][x]`); the decoder (`Image.open(...).convert('RGB')`)
  always yields 8-bit channels, captured by the well-formedness predicate `WF`;
* Python floats are modelled by `ℚ`; Python's `round` (round-half-to-even on
  the value) is `pyround`;
* Python code that can raise (pixel access out of range, division by zero,
  negative shift counts, negative image sizes) is modelled in `Option`:
  `none` means the call raises and no output image is produced;
* `rotate_on_point` computes `cos`/`sin` of the angle once, outside the
  per-pixel closure; the embedding takes those two precomputed values as the
  rational parameters `cosT`/`sinT`, which quantifies over every angle;
* Python default arguments (`y_factor=None` meaning "reuse `x_factor`") are
  resolved at the call site: the embedded functions take both factors.
-/

namespace ImgUtil

/-- An (r,g,b) pixel value, as the Python triple of nonnegative integers. -/
abbrev Color := ℕ × ℕ × ℕ

/-- A raster image: declared size plus row-major pixel rows (`data[y][x]`). -/
structure PixBuf where
  width : ℕ
  height : ℕ
  data : List (List Color)
deriving DecidableEq, Repr

/-- Pixel access `self.pixels[x, y]`: bound-checked against the declared
size, then looked up in the stored rows.  `none` models a raising access. -/
def pget (b : PixBuf) (x y : ℤ) : Option Color :=
  if 0 ≤ x ∧ x < (b.width : ℤ) ∧ 0 ≤ y ∧ y < (b.height : ℤ) then
    (b.data.get? y.toNat).bind fun row => row.get? x.toNat
  else
    none

/-- The pixel content at a coordinate, as a total function (defaulting to
black outside the stored data); used to state theorems about sources. -/
def sourcePix (b : PixBuf) (x y : ℤ) : Color :=
  (pget b x y).getD (0, 0, 0)

/-- A decoded PIL RGB image is well formed: the stored rows match the
declared size and every channel is 8-bit. -/
def WF (b : PixBuf) : Prop :=
  b.data.length = b.height ∧
    ∀ row ∈ b.data, row.length = b.width ∧
      ∀ c ∈ row, c.1 ≤ 255 ∧ c.2.1 ≤ 255 ∧ c.2.2 ≤ 255

instance : DecidablePred WF := fun b => by
  unfold WF; exact inferInstance

/-- Evaluate the per-pixel function along one destination row
(`for dx in range(dst_w)` at a fixed `dy`), propagating failure. -/
def collectRow (f : ℕ → ℕ → Option Color) (y : ℕ) : List ℕ → Option (List Color)
  | [] => some []
  | x :: xs => do
    let c ← f x y
    let rest ← collectRow f y xs
    pure (c :: rest)

/-- Evaluate the per-pixel function over all destination rows
(`for dy in range(dst_h)`), propagating failure. -/
def collectRows (f : ℕ → ℕ → Option Color) (w : ℕ) : List ℕ → Option (List (List Color))
  | [] => some []
  | y :: ys => do
    let row ← collectRow f y (List.range w)
    let rest ← collectRows f w ys
    pure (row :: rest)

/-- `ImgUtil._transform_pixels`: build a `dstW × dstH` image whose pixel at
`(dx, dy)` is `map_pixel_fn dx dy`.  `Image.new` raises on a negative size
(`none`); a raising per-pixel evaluation aborts the whole call (`none`). -/
def transform_pixels (f : ℕ → ℕ → Option Color) (dstW dstH : ℤ) : Option PixBuf :=
  if dstW < 0 ∨ dstH < 0 then none
  else
    (collectRows f dstW.toNat (List.range dstH.toNat)).map fun rows =>
      { width := dstW.toNat, height := dstH.toNat, data := rows }

/-- The image holding `g x y` at every coordinate of a `w × h` canvas;
the normal form of a successful `transform_pixels` run. -/
def mkBuf (g : ℕ → ℕ → Color) (w h : ℕ) : PixBuf :=
  { width := w, height := h
    data := (List.range h).map fun y => (List.range w).map fun x => g x y }

/-- Total number of stored pixels of an image. -/
def totalPixels (b : PixBuf) : ℕ :=
  (b.data.map List.length).sum

/-- Python's `round`: round half to even (the tie goes to the even integer). -/
def pyround (q : ℚ) : ℤ :=
  if Int.fract q < 1 / 2 then ⌊q⌋
  else if 1 / 2 < Int.fract q then ⌊q⌋ + 1
  else if ⌊q⌋ % 2 = 0 then ⌊q⌋ else ⌊q⌋ + 1

/-! ## The transform operations (`src/ImgUtil.py`) -/

/-- `ImgUtil.grayscale`. -/
def grayscale (b : PixBuf) : Option PixBuf :=
  transform_pixels
    (fun x y => (pget b x y).map fun p =>
      let gray := (p.1 + p.2.1 + p.2.2) / 3
      (gray, gray, gray))
    b.width b.height

/-- `ImgUtil.binary`: threshold the per-pixel average into pure white/black. -/
def binary (b : PixBuf) (threshold : ℤ) : Option PixBuf :=
  transform_pixels
    (fun x y => (pget b x y).map fun p =>
      let avg : ℕ := (p.1 + p.2.1 + p.2.2) / 3
      if threshold ≤ (avg : ℤ) then (0xFF, 0xFF, 0xFF) else (0x00, 0x00, 0x00))
    b.width b.height

/-- `ImgUtil.negative`: channel-wise `0xFF - c`.  (Decoded channels are
8-bit, so the Python integer subtraction never goes negative and agrees
with truncated subtraction on `ℕ`.) -/
def negative (b : PixBuf) : Option PixBuf :=
  transform_pixels
    (fun x y => (pget b x y).map fun p =>
      (0xFF - p.1, 0xFF - p.2.1, 0xFF - p.2.2))
    b.width b.height

/-- The per-pixel mask `((1 << bits) - 1) << (8 - bits)` of
`ImgUtil.reduce_bit_depth`.  A Python shift by a negative count raises
(`1 << bits` for `bits < 0`, `_ << (8 - bits)` for `bits > 8`): `none`. -/
def mask_of (bits : ℤ) : Option ℕ :=
  if bits < 0 ∨ 8 < bits then none
  else some ((((1 : ℕ) <<< bits.toNat) - 1) <<< (8 - bits.toNat))

/-- `ImgUtil.reduce_bit_depth`: AND every channel with the bit mask.
The mask is computed inside the per-pixel closure, after the fetch. -/
def reduce_bit_depth (b : PixBuf) (bits : ℤ) : Option PixBuf :=
  transform_pixels
    (fun x y => do
      let p ← pget b x y
      let m ← mask_of bits
      pure (p.1 &&& m, p.2.1 &&& m, p.2.2 &&& m))
    b.width b.height

/-- `ImgUtil.flip_vertically`. -/
def flip_vertically (b : PixBuf) : Option PixBuf :=
  transform_pixels
    (fun x y => pget b x ((b.height : ℤ) - 1 - y))
    b.width b.height

/-- `ImgUtil.flip_horizontally`. -/
def flip_horizontally (b : PixBuf) : Option PixBuf :=
  transform_pixels
    (fun x y => pget b ((b.width : ℤ) - 1 - x) y)
    b.width b.height

/-- `ImgUtil.rotate`: quadrant rotation.  `step = 0/1/2` is 90°/180°/270°;
steps 0 and 2 swap the destination width and height. -/
def rotate (b : PixBuf) (step : ℤ) : Option PixBuf :=
  let dst : ℤ × ℤ :=
    if step = 0 ∨ step = 2 then ((b.height : ℤ), (b.width : ℤ))
    else ((b.width : ℤ), (b.height : ℤ))
  transform_pixels
    (fun x y =>
      let w : ℤ := b.width
      let h : ℤ := b.height
      if step = 0 then pget b (w - 1 - y) x
      else if step = 1 then pget b (w - 1 - x) (h - 1 - y)
      else pget b y (h - 1 - x))
    dst.1 dst.2

/-- The source coordinate computed by the `to_rotate` closure of
`ImgUtil.rotate_on_point`: pivot-relative inverse rotation, then rounding. -/
def rotSrc (cosT sinT px py : ℚ) (dx dy : ℕ) : ℤ × ℤ :=
  let xRot : ℚ := (dx : ℚ) - px
  let yRot : ℚ := (dy : ℚ) - py
  let xRel : ℚ := xRot * cosT + yRot * sinT
  let yRel : ℚ := -xRot * sinT + yRot * cosT
  (pyround (xRel + px), pyround (yRel + py))

/-- `ImgUtil.rotate_on_point`: rotate about a pivot with nearest-neighbor
sampling; the destination keeps the source size (no `dst_size` is passed),
and an out-of-bounds source coordinate yields the literal `(0, 255, 0)`. -/
def rotate_on_point (b : PixBuf) (cosT sinT px py : ℚ) : Option PixBuf :=
  transform_pixels
    (fun dx dy =>
      let s := rotSrc cosT sinT px py dx dy
      if 0 ≤ s.1 ∧ s.1 < (b.width : ℤ) ∧ 0 ≤ s.2 ∧ s.2 < (b.height : ℤ) then
        pget b s.1 s.2
      else
        some (0, 255, 0))
    b.width b.height

/-- `ImgUtil.get_scaled_coordinates`. -/
def get_scaled_coordinates (x y xf yf : ℚ) : ℚ × ℚ :=
  (x * xf, y * yf)

/-- `ImgUtil.get_unscaled_coordinates`: `round(x/xf), round(y/yf)`.
A zero factor raises `ZeroDivisionError` in Python: `none`. -/
def get_unscaled_coordinates (xs ys xf yf : ℚ) : Option (ℤ × ℤ) :=
  if xf = 0 ∨ yf = 0 then none
  else some (pyround (xs / xf), pyround (ys / yf))

/-- The destination extent `round(dim * factor)` used by `scale` and
`scale_bilinear`. -/
def scaleDim (n : ℕ) (f : ℚ) : ℤ :=
  pyround ((n : ℚ) * f)

/-- `ImgUtil.scale`: nearest-neighbor scaling; out-of-bounds source
coordinates are filled with black. -/
def scale (b : PixBuf) (xf yf : ℚ) : Option PixBuf :=
  transform_pixels
    (fun dx dy =>
      match get_unscaled_coordinates (dx : ℚ) (dy : ℚ) xf yf with
      | none => none
      | some s =>
        if 0 ≤ s.1 ∧ s.1 < (b.width : ℤ) ∧ 0 ≤ s.2 ∧ s.2 < (b.height : ℤ) then
          pget b s.1 s.2
        else
          some (0, 0, 0))
    (scaleDim b.width xf) (scaleDim b.height yf)

/-- The `clamp` helper inside `ImgUtil.scale_bilinear`. -/
def clamp (v maxV : ℤ) : ℤ :=
  max 0 (min v maxV)

/-- `ImgUtil.scale_bilinear`: bilinear scaling with edge-clamped sampling.
The blended value is a convex combination of the four (nonnegative) channel
values, so the rounded result is nonnegative and `Int.toNat` is exact. -/
def scale_bilinear (b : PixBuf) (xf yf : ℚ) : Option PixBuf :=
  transform_pixels
    (fun dx dy =>
      if xf = 0 ∨ yf = 0 then none
      else
        let srcXf : ℚ := (dx : ℚ) / xf
        let srcYf : ℚ := (dy : ℚ) / yf
        let x0 : ℤ := ⌊srcXf⌋
        let y0 : ℤ := ⌊srcYf⌋
        let x1 : ℤ := x0 + 1
        let y1 : ℤ := y0 + 1
        let wx : ℚ := srcXf - (x0 : ℚ)
        let wy : ℚ := srcYf - (y0 : ℚ)
        let x0c := clamp x0 ((b.width : ℤ) - 1)
        let x1c := clamp x1 ((b.width : ℤ) - 1)
        let y0c := clamp y0 ((b.height : ℤ) - 1)
        let y1c := clamp y1 ((b.height : ℤ) - 1)
        do
          let p00 ← pget b x0c y0c
          let p10 ← pget b x1c y0c
          let p01 ← pget b x0c y1c
          let p11 ← pget b x1c y1c
          let w00 := (1 - wx) * (1 - wy)
          let w10 := wx * (1 - wy)
          let w01 := (1 - wx) * wy
          let w11 := wx * wy
          pure
            ((pyround ((p00.1 : ℚ) * w00 + (p10.1 : ℚ) * w10 +
                (p01.1 : ℚ) * w01 + (p11.1 : ℚ) * w11)).toNat,
             (pyround ((p00.2.1 : ℚ) * w00 + (p10.2.1 : ℚ) * w10 +
                (p01.2.1 : ℚ) * w01 + (p11.2.1 : ℚ) * w11)).toNat,
             (pyround ((p00.2.2 : ℚ) * w00 + (p10.2.2 : ℚ) * w10 +
                (p01.2.2 : ℚ) * w01 + (p11.2.2 : ℚ) * w11)).toNat))
    (scaleDim b.width xf) (scaleDim b.height yf)

/-- Modelled from the spec: the repository's *expand* canvas policy for
pivot rotation is not implemented under `src/`; following the spec's words,
rotate the four image corners about the pivot by the (forward) angle and
size the destination canvas to the bounding box of the rotated corners. -/
def specExpandSize (w h : ℕ) (cosT sinT px py : ℚ) : ℤ × ℤ :=
  let rot : ℚ × ℚ → ℚ × ℚ := fun c =>
    let rx := c.1 - px
    let ry := c.2 - py
    (rx * cosT - ry * sinT + px, rx * sinT + ry * cosT + py)
  let c1 := rot (0, 0)
  let c2 := rot ((w : ℚ), 0)
  let c3 := rot (0, (h : ℚ))
  let c4 := rot ((w : ℚ), (h : ℚ))
  let xmin := min (min c1.1 c2.1) (min c3.1 c4.1)
  let xmax := max (max c1.1 c2.1) (max c3.1 c4.1)
  let ymin := min (min c1.2 c2.2) (min c3.2 c4.2)
  let ymax := max (max c1.2 c2.2) (max c3.2 c4.2)
  (⌈xmax⌉ - ⌊xmin⌋, ⌈ymax⌉ - ⌊ymin⌋)

/-! ## Normal forms of the operations on a well-formed source -/

/-- The pure pixel rule of `binary`. -/
def gbinary (b : PixBuf) (t : ℤ) (x y : ℕ) : Color :=
  let p := sourcePix b x y
  let avg : ℕ := (p.1 + p.2.1 + p.2.2) / 3
  if t ≤ (avg : ℤ) then (0xFF, 0xFF, 0xFF) else (0x00, 0x00, 0x00)

/-- The pure pixel rule of `negative`. -/
def gnegative (b : PixBuf) (x y : ℕ) : Color :=
  let p := sourcePix b x y
  (0xFF - p.1, 0xFF - p.2.1, 0xFF - p.2.2)

/-- The pure pixel rule of `reduce_bit_depth` for an in-range mask. -/
def greduce (b : PixBuf) (m : ℕ) (x y : ℕ) : Color :=
  let p := sourcePix b x y
  (p.1 &&& m, p.2.1 &&& m, p.2.2 &&& m)

/-- The pure pixel rule of `rotate` at step 0 (90°). -/
def grotate0 (b : PixBuf) (x y : ℕ) : Color :=
  sourcePix b ((b.width : ℤ) - 1 - y) x

/-- The pure pixel rule of `rotate` at step 2 (270°). -/
def grotate2 (b : PixBuf) (x y : ℕ) : Color :=
  sourcePix b y ((b.height : ℤ) - 1 - x)

/-- The pure pixel rule of `rotate_on_point`. -/
def grot (b : PixBuf) (cosT sinT px py : ℚ) (dx dy : ℕ) : Color :=
  let s := rotSrc cosT sinT px py dx dy
  if 0 ≤ s.1 ∧ s.1 < (b.width : ℤ) ∧ 0 ≤ s.2 ∧ s.2 < (b.height : ℤ) then
    sourcePix b s.1 s.2
  else
    (0, 255, 0)

/-- The pure pixel rule of `scale` for nonzero factors. -/
def gscale (b : PixBuf) (xf yf : ℚ) (dx dy : ℕ) : Color :=
  let s : ℤ × ℤ := (pyround ((dx : ℚ) / xf), pyround ((dy : ℚ) / yf))
  if 0 ≤ s.1 ∧ s.1 < (b.width : ℤ) ∧ 0 ≤ s.2 ∧ s.2 < (b.height : ℤ) then
    sourcePix b s.1 s.2
  else
    (0, 0, 0)

/-- A generic example per-pixel map, used to exercise the transform engine. -/
def exampleMapFn : ℕ → ℕ → Color := fun x y => (40 * x, 10 * y, 7)

/-- A concrete well-formed 1×1 source image. -/
def bufA : PixBuf := ⟨1, 1, [[(200, 100, 50)]]⟩

/-- A concrete well-formed 2×1 source image. -/
def buf2x1 : PixBuf := ⟨2, 1, [[(1, 2, 3), (4, 5, 6)]]⟩

/-- A concrete well-formed 14×1 source image. -/
def buf14 : PixBuf := ⟨14, 1, [List.replicate 14 (0, 0, 0)]⟩

/- The core rational operations are irreducible by default, which blocks
elaboration-time evaluation of concrete scale factors and angles; restore
semireducibility locally so that `decide` can evaluate the embedding. -/
attribute [local semireducible] Rat.add Rat.sub Rat.mul Rat.inv

/-! ## Engine lemmas -/

theorem collectRow_eq_map (f : ℕ → ℕ → Option Color) (g : ℕ → ℕ → Color) (y : ℕ)
    (l : List ℕ) (h : ∀ x ∈ l, f x y = some (g x y)) :
    collectRow f y l = some (l.map fun x => g x y) := by
  induction l with
  | nil => rfl
  | cons a l ih =>
    have ha := h a (List.mem_cons_self a l)
    have hl : ∀ x ∈ l, f x y = some (g x y) := fun x hx => h x (List.mem_cons_of_mem a hx)
    simp [collectRow, ha, ih hl]

theorem collectRows_eq_map (f : ℕ → ℕ → Option Color) (g : ℕ → ℕ → Color) (w : ℕ)
    (l : List ℕ) (h : ∀ y ∈ l, ∀ x ∈ List.range w, f x y = some (g x y)) :
    collectRows f w l = some (l.map fun y => (List.range w).map fun x => g x y) := by
  induction l with
  | nil => rfl
  | cons a l ih =>
    have ha := collectRow_eq_map f g a (List.range w) (h a (List.mem_cons_self a l))
    have hl : ∀ y ∈ l, ∀ x ∈ List.range w, f x y = some (g x y) :=
      fun y hy => h y (List.mem_cons_of_mem a hy)
    simp [collectRows, ha, ih hl]

theorem transform_pixels_eq_mk_int (f : ℕ → ℕ → Option Color) (g : ℕ → ℕ → Color)
    (w h : ℤ) (hw : 0 ≤ w) (hh : 0 ≤ h)
    (hfg : ∀ x, x < w.toNat → ∀ y, y < h.toNat → f x y = some (g x y)) :
    transform_pixels f w h = some (mkBuf g w.toNat h.toNat) := by
  have hrows := collectRows_eq_map f g w.toNat (List.range h.toNat)
    (fun y hy x hx => hfg x (List.mem_range.1 hx) y (List.mem_range.1 hy))
  unfold transform_pixels
  rw [if_neg (by omega), hrows]
  rfl

theorem transform_pixels_eq_mk (f : ℕ → ℕ → Option Color) (g : ℕ → ℕ → Color)
    (w h : ℕ)
    (hfg : ∀ x, x < w → ∀ y, y < h → f x y = some (g x y)) :
    transform_pixels f (w : ℤ) (h : ℤ) = some (mkBuf g w h) := by
  have := transform_pixels_eq_mk_int f g w h (Int.natCast_nonneg w) (Int.natCast_nonneg h)
    (by simpa using hfg)
  simpa using this

theorem transform_pixels_eq_none (f : ℕ → ℕ → Option Color) (w h : ℤ)
    (hw : 0 < w) (hh : 0 < h) (hf : f 0 0 = none) :
    transform_pixels f w h = none := by
  unfold transform_pixels
  rw [if_neg (by omega)]
  suffices hs : collectRows f w.toNat (List.range h.toNat) = none by
    rw [hs]; rfl
  obtain ⟨n, hn⟩ : ∃ n, h.toNat = n + 1 := ⟨h.toNat - 1, by omega⟩
  rw [hn, List.range_succ_eq_map]
  suffices hrow : collectRow f 0 (List.range w.toNat) = none by
    simp [collectRows, hrow]
  obtain ⟨m, hm⟩ : ∃ m, w.toNat = m + 1 := ⟨w.toNat - 1, by omega⟩
  rw [hm, List.range_succ_eq_map]
  simp [collectRow, hf]

theorem pget_mkBuf (g : ℕ → ℕ → Color) (w h x y : ℕ) (hx : x < w) (hy : y < h) :
    pget (mkBuf g w h) (x : ℤ) (y : ℤ) = some (g x y) := by
  unfold pget mkBuf
  rw [if_pos (by refine ⟨by positivity, ?_, by positivity, ?_⟩ <;> simp <;> omega)]
  simp [List.getElem?_map, List.getElem?_range hy, List.getElem?_range hx]

theorem sourcePix_mkBuf (g : ℕ → ℕ → Color) (w h x y : ℕ) (hx : x < w) (hy : y < h) :
    sourcePix (mkBuf g w h) (x : ℤ) (y : ℤ) = g x y := by
  rw [sourcePix, pget_mkBuf g w h x y hx hy]
  rfl

theorem WF_mkBuf (g : ℕ → ℕ → Color) (w h : ℕ)
    (hg : ∀ x, x < w → ∀ y, y < h →
      (g x y).1 ≤ 255 ∧ (g x y).2.1 ≤ 255 ∧ (g x y).2.2 ≤ 255) :
    WF (mkBuf g w h) := by
  refine ⟨by simp [mkBuf], ?_⟩
  intro row hrow
  simp only [mkBuf, List.mem_map, List.mem_range] at hrow
  obtain ⟨y, hy, rfl⟩ := hrow
  refine ⟨by simp [mkBuf], ?_⟩
  intro c hc
  simp only [List.mem_map, List.mem_range] at hc
  obtain ⟨x, hx, rfl⟩ := hc
  exact hg x hx y hy

theorem totalPixels_mkBuf (g : ℕ → ℕ → Color) (w h : ℕ) :
    totalPixels (mkBuf g w h) = w * h := by
  unfold totalPixels mkBuf
  induction h with
  | zero => simp
  | succ n ih =>
    rw [List.range_succ]
    simp only [List.map_append, List.sum_append] at *
    rw [ih]
    simp [Nat.mul_succ]

theorem pget_eq_some_sourcePix {b : PixBuf} (hb : WF b) {x y : ℤ}
    (hx0 : 0 ≤ x) (hx : x < (b.width : ℤ)) (hy0 : 0 ≤ y) (hy : y < (b.height : ℤ)) :
    pget b x y = some (sourcePix b x y) ∧
      (sourcePix b x y).1 ≤ 255 ∧ (sourcePix b x y).2.1 ≤ 255 ∧
      (sourcePix b x y).2.2 ≤ 255 := by
  obtain ⟨hlen, hrows⟩ := hb
  have hylt : y.toNat < b.data.length := by omega
  have hrow := List.get?_eq_get hylt
  set row := b.data.get ⟨y.toNat, hylt⟩ with hrowdef
  have hmem : row ∈ b.data := List.get_mem _ _ _
  obtain ⟨hrlen, hpix⟩ := hrows row hmem
  have hxlt : x.toNat < row.length := by omega
  have hcell := List.get?_eq_get hxlt
  set c := row.get ⟨x.toNat, hxlt⟩ with hcdef
  have hcmem : c ∈ row := List.get_mem _ _ _
  have hpg : pget b x y = some c := by
    unfold pget
    rw [if_pos ⟨hx0, hx, hy0, hy⟩, hrow]
    simpa using hcell
  have hsp : sourcePix b x y = c := by rw [sourcePix, hpg]; rfl
  rw [hpg, hsp]
  exact ⟨rfl, hpix c hcmem⟩

theorem pget_coe_eq {b : PixBuf} (hb : WF b) (x y : ℕ)
    (hx : x < b.width) (hy : y < b.height) :
    pget b (x : ℤ) (y : ℤ) = some (sourcePix b (x : ℤ) (y : ℤ)) :=
  (pget_eq_some_sourcePix hb (by positivity) (by exact_mod_cast hx)
    (by positivity) (by exact_mod_cast hy)).1

theorem sourcePix_le {b : PixBuf} (hb : WF b) (x y : ℕ)
    (hx : x < b.width) (hy : y < b.height) :
    (sourcePix b (x : ℤ) (y : ℤ)).1 ≤ 255 ∧ (sourcePix b (x : ℤ) (y : ℤ)).2.1 ≤ 255 ∧
      (sourcePix b (x : ℤ) (y : ℤ)).2.2 ≤ 255 :=
  (pget_eq_some_sourcePix hb (by positivity) (by exact_mod_cast hx)
    (by positivity) (by exact_mod_cast hy)).2

/-! ## Rounding lemmas -/

theorem pyround_sub_abs_le (q : ℚ) : |(pyround q : ℚ) - q| ≤ 1 / 2 := by
  have h0 : 0 ≤ Int.fract q := Int.fract_nonneg q
  have h1 : Int.fract q < 1 := Int.fract_lt_one q
  have hq : (⌊q⌋ : ℚ) + Int.fract q = q := Int.floor_add_fract q
  unfold pyround
  split_ifs with hA hB hC <;>
    (rw [abs_le]; push_cast; constructor <;> linarith)

theorem pyround_nonneg (q : ℚ) (hq : 0 ≤ q) : 0 ≤ pyround q := by
  have hfl : 0 ≤ ⌊q⌋ := Int.floor_nonneg.2 hq
  unfold pyround
  split_ifs <;> omega

theorem binary_eq (b : PixBuf) (t : ℤ) (hb : WF b) :
    binary b t = some (mkBuf (gbinary b t) b.width b.height) := by
  unfold binary
  apply transform_pixels_eq_mk
  intro x hx y hy
  rw [pget_coe_eq hb x y hx hy]
  rfl

theorem negative_eq (b : PixBuf) (hb : WF b) :
    negative b = some (mkBuf (gnegative b) b.width b.height) := by
  unfold negative
  apply transform_pixels_eq_mk
  intro x hx y hy
  rw [pget_coe_eq hb x y hx hy]
  rfl

theorem reduce_eq (b : PixBuf) (bits : ℤ) (hb : WF b) (h0 : 0 ≤ bits) (h8 : bits ≤ 8) :
    reduce_bit_depth b bits =
      some (mkBuf (greduce b ((((1 : ℕ) <<< bits.toNat) - 1) <<< (8 - bits.toNat)))
        b.width b.height) := by
  unfold reduce_bit_depth
  apply transform_pixels_eq_mk
  intro x hx y hy
  rw [pget_coe_eq hb x y hx hy]
  simp only [mask_of, if_neg (by omega : ¬(bits < 0 ∨ 8 < bits))]
  rfl

theorem rotate_step0_eq (b : PixBuf) (hb : WF b) :
    rotate b 0 = some (mkBuf (grotate0 b) b.height b.width) := by
  unfold rotate
  simp only [show ((0 : ℤ) = 0 ∨ (0 : ℤ) = 2) = True by simp, if_true]
  apply transform_pixels_eq_mk
  intro x hx y hy
  have hyw : (y : ℤ) < b.width := by exact_mod_cast hy
  exact (pget_eq_some_sourcePix hb (by omega) (by omega)
    (by positivity) (by exact_mod_cast hx)).1

theorem rotate_step2_eq (b : PixBuf) (hb : WF b) :
    rotate b 2 = some (mkBuf (grotate2 b) b.height b.width) := by
  unfold rotate
  simp only [show ((2 : ℤ) = 0 ∨ (2 : ℤ) = 2) = True by simp, if_true]
  apply transform_pixels_eq_mk
  intro x hx y hy
  rw [if_neg (by omega), if_neg (by omega)]
  have hxh : (x : ℤ) < b.height := by exact_mod_cast hx
  exact (pget_eq_some_sourcePix hb (by positivity) (by exact_mod_cast hy)
    (by omega) (by omega)).1

theorem rotate_on_point_eq (b : PixBuf) (cosT sinT px py : ℚ) (hb : WF b) :
    rotate_on_point b cosT sinT px py =
      some (mkBuf (grot b cosT sinT px py) b.width b.height) := by
  unfold rotate_on_point
  apply transform_pixels_eq_mk
  intro x hx y hy
  unfold grot
  by_cases hin : 0 ≤ (rotSrc cosT sinT px py x y).1 ∧
      (rotSrc cosT sinT px py x y).1 < (b.width : ℤ) ∧
      0 ≤ (rotSrc cosT sinT px py x y).2 ∧
      (rotSrc cosT sinT px py x y).2 < (b.height : ℤ)
  · rw [if_pos hin, if_pos hin]
    exact (pget_eq_some_sourcePix hb hin.1 hin.2.1 hin.2.2.1 hin.2.2.2).1
  · rw [if_neg hin, if_neg hin]

theorem scale_eq (b : PixBuf) (xf yf : ℚ) (hb : WF b) (hx : xf ≠ 0) (hy : yf ≠ 0)
    (hw : 0 ≤ scaleDim b.width xf) (hh : 0 ≤ scaleDim b.height yf) :
    scale b xf yf =
      some (mkBuf (gscale b xf yf) (scaleDim b.width xf).toNat (scaleDim b.height yf).toNat) := by
  unfold scale
  apply transform_pixels_eq_mk_int _ _ _ _ hw hh
  intro dx hdx dy hdy
  unfold get_unscaled_coordinates
  rw [if_neg (by tauto)]
  unfold gscale
  dsimp only
  by_cases hin : 0 ≤ (pyround ((dx : ℚ) / xf)) ∧ (pyround ((dx : ℚ) / xf)) < (b.width : ℤ) ∧
      0 ≤ (pyround ((dy : ℚ) / yf)) ∧ (pyround ((dy : ℚ) / yf)) < (b.height : ℤ)
  · rw [if_pos hin, if_pos hin]
    exact (pget_eq_some_sourcePix hb hin.1 hin.2.1 hin.2.2.1 hin.2.2.2).1
  · rw [if_neg hin, if_neg hin]

theorem transform_pixels_isSome (f : ℕ → ℕ → Option Color) (w h : ℤ)
    (hw : 0 ≤ w) (hh : 0 ≤ h)
    (hf : ∀ x, x < w.toNat → ∀ y, y < h.toNat → (f x y).isSome) :
    (transform_pixels f w h).isSome := by
  have heq := transform_pixels_eq_mk_int f (fun x y => (f x y).getD (0, 0, 0)) w h hw hh
    (fun x hx y hy => by
      have h := hf x hx y hy
      cases hfx : f x y with
      | none => rw [hfx] at h; simp at h
      | some c => simp [hfx])
  rw [heq]
  rfl

theorem clamp_mem (v maxV : ℤ) (h : 0 ≤ maxV) :
    0 ≤ clamp v maxV ∧ clamp v maxV ≤ maxV := by
  unfold clamp
  exact ⟨le_max_left _ _, max_le h (min_le_right _ _)⟩

theorem pget_some_bounds {b : PixBuf} {x y : ℤ} {c : Color} (h : pget b x y = some c) :
    0 ≤ x ∧ x < (b.width : ℤ) ∧ 0 ≤ y ∧ y < (b.height : ℤ) := by
  unfold pget at h
  by_cases hin : 0 ≤ x ∧ x < (b.width : ℤ) ∧ 0 ≤ y ∧ y < (b.height : ℤ)
  · exact hin
  · rw [if_neg hin] at h
    exact absurd h (by simp)

/-! ## The claims -/

/-- C1: for every destination size `destWidth, destHeight ≥ 0` and every
per-pixel function returning a valid 8-bit triple on every in-range
coordinate, `_transform_pixels` returns a buffer of exactly
`destWidth × destHeight` pixels in which the pixel at every `(dx, dy)`
equals `mapFn dx dy`. -/
theorem C1_transform_engine (w h : ℕ) (g : ℕ → ℕ → Color)
    (hvalid : ∀ x, x < w → ∀ y, y < h →
      (g x y).1 ≤ 255 ∧ (g x y).2.1 ≤ 255 ∧ (g x y).2.2 ≤ 255) :
    ∃ out, transform_pixels (fun x y => some (g x y)) (w : ℤ) (h : ℤ) = some out ∧
      totalPixels out = w * h ∧
      ∀ x, x < w → ∀ y, y < h → pget out (x : ℤ) (y : ℤ) = some (g x y) :=
  ⟨mkBuf g w h, transform_pixels_eq_mk _ _ _ _ (fun _ _ _ _ => rfl),
    totalPixels_mkBuf g w h, fun x hx y hy => pget_mkBuf g w h x y hx hy⟩

/-- Witness for C1 at a concrete 2×3 destination and map function. -/
theorem C1_transform_engine_witness :
    (∀ x, x < 2 → ∀ y, y < 3 →
      (exampleMapFn x y).1 ≤ 255 ∧ (exampleMapFn x y).2.1 ≤ 255 ∧
        (exampleMapFn x y).2.2 ≤ 255) ∧
    ∃ out, transform_pixels (fun x y => some (exampleMapFn x y)) ((2 : ℕ) : ℤ) ((3 : ℕ) : ℤ) = some out ∧
      totalPixels out = 2 * 3 ∧
      ∀ x : ℕ, x < 2 → ∀ y : ℕ, y < 3 → pget out (x : ℤ) (y : ℤ) = some (exampleMapFn x y) :=
  ⟨by decide, C1_transform_engine 2 3 exampleMapFn (by decide)⟩

/-- C2 counterexample: `rotate_on_point` offers no expand mode.  Rotating a
2×1 image by 90° about the origin keeps the 2×1 canvas, while the
spec-modelled expand policy would size the canvas to the 1×2 bounding box
of the rotated corners. -/
theorem C2_counterexample :
    (rotate_on_point buf2x1 0 1 0 0).map (fun o => ((o.width : ℤ), (o.height : ℤ))) =
      some (2, 1) ∧
    specExpandSize 2 1 0 1 0 0 = (1, 2) ∧
    ((2 : ℤ), (1 : ℤ)) ≠ ((1 : ℤ), (2 : ℤ)) := by decide

/-- C2 (amended): `rotate_on_point` supports only the fixed canvas policy:
for every image, angle and pivot the output keeps the original width and
height, so rotated content falling outside is clipped; no expand mode
exists. -/
theorem C2_fixed_canvas (b : PixBuf) (cosT sinT px py : ℚ) (hb : WF b) :
    ∃ out, rotate_on_point b cosT sinT px py = some out ∧
      out.width = b.width ∧ out.height = b.height :=
  ⟨mkBuf (grot b cosT sinT px py) b.width b.height,
    rotate_on_point_eq b cosT sinT px py hb, rfl, rfl⟩

/-- Witness for C2 (amended) at a concrete image and rotation. -/
theorem C2_fixed_canvas_witness :
    WF buf2x1 ∧
      ∃ out, rotate_on_point buf2x1 0 1 0 0 = some out ∧
        out.width = buf2x1.width ∧ out.height = buf2x1.height :=
  ⟨by decide, C2_fixed_canvas buf2x1 0 1 0 0 (by decide)⟩

/-- C3 counterexample: a zero scale factor is an invalid parameter, yet
`scale` returns an (empty) output buffer instead of failing. -/
theorem C3_counterexample :
    scale bufA 0 0 = some ⟨0, 0, []⟩ := by decide

/-- C3 (amended): no parameter validation is performed.  A zero scale
factor silently yields an empty 0×0 output buffer instead of a failure,
and an out-of-range `bitsPerChannel` makes `reduce_bit_depth` fail only
while evaluating a pixel of a nonempty image (a raising shift inside the
per-pixel closure), not fast at entry. -/
theorem C3_no_validation (b : PixBuf) (bits : ℤ)
    (hbits : bits < 0 ∨ 8 < bits) (hw : 0 < b.width) (hh : 0 < b.height) :
    scale b 0 0 = some ⟨0, 0, []⟩ ∧ reduce_bit_depth b bits = none := by
  constructor
  · have h0 : scaleDim b.width (0 : ℚ) = 0 := by
      norm_num [scaleDim, pyround]
    have h1 : scaleDim b.height (0 : ℚ) = 0 := by
      norm_num [scaleDim, pyround]
    unfold scale
    rw [h0, h1]
    rfl
  · have hm : mask_of bits = none := by
      unfold mask_of
      rw [if_pos hbits]
    unfold reduce_bit_depth
    apply transform_pixels_eq_none _ _ _ (by exact_mod_cast hw) (by exact_mod_cast hh)
    cases hp : pget b ((0 : ℕ) : ℤ) ((0 : ℕ) : ℤ) with
    | none => simp [hp]
    | some c => simp [hp, hm]

/-- Witness for C3 (amended) at a concrete image and `bitsPerChannel = 9`. -/
theorem C3_no_validation_witness :
    ((9 : ℤ) < 0 ∨ 8 < (9 : ℤ)) ∧ 0 < bufA.width ∧ 0 < bufA.height ∧
      (scale bufA 0 0 = some ⟨0, 0, []⟩ ∧ reduce_bit_depth bufA 9 = none) :=
  ⟨by decide, by decide, by decide,
    C3_no_validation bufA 9 (by decide) (by decide) (by decide)⟩

/-- C10: every destination pixel of `rotate_on_point` whose inverse-rotated,
rounded source coordinate falls outside the source bounds is assigned the
color `(0, 255, 0)` (green), not black, although the docstring announces a
black fill. -/
theorem C10_green_fill (b : PixBuf) (cosT sinT px py : ℚ) (dx dy : ℕ)
    (hb : WF b) (hdx : dx < b.width) (hdy : dy < b.height)
    (hout : ¬(0 ≤ (rotSrc cosT sinT px py dx dy).1 ∧
        (rotSrc cosT sinT px py dx dy).1 < (b.width : ℤ) ∧
        0 ≤ (rotSrc cosT sinT px py dx dy).2 ∧
        (rotSrc cosT sinT px py dx dy).2 < (b.height : ℤ))) :
    ∃ out, rotate_on_point b cosT sinT px py = some out ∧
      pget out (dx : ℤ) (dy : ℤ) = some (0, 255, 0) := by
  refine ⟨_, rotate_on_point_eq b cosT sinT px py hb, ?_⟩
  rw [pget_mkBuf _ _ _ dx dy hdx hdy]
  unfold grot
  dsimp only
  rw [if_neg hout]

/-- Witness for C10: rotating a 2×1 image by 90° about the origin sends
destination pixel `(1, 0)` outside the source, and it is filled green. -/
theorem C10_green_fill_witness :
    WF buf2x1 ∧ 1 < buf2x1.width ∧ 0 < buf2x1.height ∧
      ¬(0 ≤ (rotSrc 0 1 0 0 1 0).1 ∧ (rotSrc 0 1 0 0 1 0).1 < (buf2x1.width : ℤ) ∧
        0 ≤ (rotSrc 0 1 0 0 1 0).2 ∧ (rotSrc 0 1 0 0 1 0).2 < (buf2x1.height : ℤ)) ∧
      ∃ out, rotate_on_point buf2x1 0 1 0 0 = some out ∧
        pget out ((1 : ℕ) : ℤ) ((0 : ℕ) : ℤ) = some (0, 255, 0) :=
  ⟨by decide, by decide, by decide, by decide,
    C10_green_fill buf2x1 0 1 0 0 1 0 (by decide) (by decide) (by decide) (by decide)⟩


/-- C4: for every input image and every integer threshold in `[0, 255]`,
every pixel of `binary threshold` is pure white `(255,255,255)` when the
source pixel's average `(r+g+b)/3` (floor division) is at least the
threshold and pure black `(0,0,0)` otherwise; in particular the output
holds only pure black/white triples. -/
theorem C4_binary_thresholding (b : PixBuf) (t : ℤ) (hb : WF b)
    (ht0 : 0 ≤ t) (ht1 : t ≤ 255) :
    ∃ out, binary b t = some out ∧
      (∀ x, x < b.width → ∀ y, y < b.height →
        pget out (x : ℤ) (y : ℤ) =
          some (if t ≤ (((sourcePix b x y).1 + (sourcePix b x y).2.1 +
              (sourcePix b x y).2.2) / 3 : ℕ) then
            (255, 255, 255) else (0, 0, 0))) ∧
      (∀ (x y : ℤ) (c : Color), pget out x y = some c →
        c = (255, 255, 255) ∨ c = (0, 0, 0)) := by
  refine ⟨mkBuf (gbinary b t) b.width b.height, binary_eq b t hb, ?_, ?_⟩
  · intro x hx y hy
    rw [pget_mkBuf _ _ _ x y hx hy]
    rfl
  · intro x y c hc
    obtain ⟨hx0, hx1, hy0, hy1⟩ := pget_some_bounds hc
    have hx1n : x < ((b.width : ℕ) : ℤ) := hx1
    have hy1n : y < ((b.height : ℕ) : ℤ) := hy1
    rw [show x = ((x.toNat : ℕ) : ℤ) from (Int.toNat_of_nonneg hx0).symm,
      show y = ((y.toNat : ℕ) : ℤ) from (Int.toNat_of_nonneg hy0).symm,
      pget_mkBuf _ _ _ _ _ (by omega) (by omega)] at hc
    rw [(Option.some.inj hc).symm]
    unfold gbinary
    dsimp only
    split_ifs
    · left; rfl
    · right; rfl

/-- Witness for C4 at a concrete image and threshold 116. -/
theorem C4_binary_thresholding_witness :
    WF bufA ∧ (0 : ℤ) ≤ 116 ∧ (116 : ℤ) ≤ 255 ∧
      ∃ out, binary bufA 116 = some out ∧
        (∀ x, x < bufA.width → ∀ y, y < bufA.height →
          pget out (x : ℤ) (y : ℤ) =
            some (if (116 : ℤ) ≤ (((sourcePix bufA x y).1 + (sourcePix bufA x y).2.1 +
                (sourcePix bufA x y).2.2) / 3 : ℕ) then
              (255, 255, 255) else (0, 0, 0))) ∧
        (∀ (x y : ℤ) (c : Color), pget out x y = some c →
          c = (255, 255, 255) ∨ c = (0, 0, 0)) :=
  ⟨by decide, by decide, by decide,
    C4_binary_thresholding bufA 116 (by decide) (by decide) (by decide)⟩

/-- C5: rotating by 90° (`rotate` step 0) and then by 270° (`rotate` step 2)
restores the original dimensions and every pixel exactly. -/
theorem C5_rotate90_then_270 (b : PixBuf) (hb : WF b) :
    ∃ b2, (rotate b 0).bind (fun b1 => rotate b1 2) = some b2 ∧
      b2.width = b.width ∧ b2.height = b.height ∧
      ∀ x, x < b.width → ∀ y, y < b.height →
        pget b2 (x : ℤ) (y : ℤ) = pget b (x : ℤ) (y : ℤ) := by
  have h1 : rotate b 0 = some (mkBuf (grotate0 b) b.height b.width) := rotate_step0_eq b hb
  have hb1 : WF (mkBuf (grotate0 b) b.height b.width) := by
    apply WF_mkBuf
    intro x hx y hy
    unfold grotate0
    have hyw : (y : ℤ) < b.width := by exact_mod_cast hy
    exact (pget_eq_some_sourcePix hb (by omega) (by omega)
      (by positivity) (by exact_mod_cast hx)).2
  have h2 := rotate_step2_eq (mkBuf (grotate0 b) b.height b.width) hb1
  refine ⟨mkBuf (grotate2 (mkBuf (grotate0 b) b.height b.width))
      (mkBuf (grotate0 b) b.height b.width).height
      (mkBuf (grotate0 b) b.height b.width).width,
    by rw [h1]; simpa using h2, rfl, rfl, ?_⟩
  intro x hx y hy
  rw [pget_mkBuf (grotate2 (mkBuf (grotate0 b) b.height b.width))
    (mkBuf (grotate0 b) b.height b.width).height
    (mkBuf (grotate0 b) b.height b.width).width x y hx hy]
  have key : grotate2 (mkBuf (grotate0 b) b.height b.width) x y = sourcePix b x y := by
    unfold grotate2
    have e1 : (((mkBuf (grotate0 b) b.height b.width).height : ℕ) : ℤ) - 1 - (x : ℤ) =
        ((b.width - 1 - x : ℕ) : ℤ) := by
      show ((b.width : ℕ) : ℤ) - 1 - (x : ℤ) = ((b.width - 1 - x : ℕ) : ℤ)
      omega
    rw [e1, sourcePix_mkBuf (grotate0 b) b.height b.width y (b.width - 1 - x) hy (by omega)]
    unfold grotate0
    have e2 : ((b.width : ℕ) : ℤ) - 1 - ((b.width - 1 - x : ℕ) : ℤ) = (x : ℤ) := by omega
    rw [e2]
  rw [key, pget_coe_eq hb x y hx hy]

/-- Witness for C5 at a concrete 2×1 image. -/
theorem C5_rotate90_then_270_witness :
    WF buf2x1 ∧
      ∃ b2, (rotate buf2x1 0).bind (fun b1 => rotate b1 2) = some b2 ∧
        b2.width = buf2x1.width ∧ b2.height = buf2x1.height ∧
        ∀ x, x < buf2x1.width → ∀ y, y < buf2x1.height →
          pget b2 (x : ℤ) (y : ℤ) = pget buf2x1 (x : ℤ) (y : ℤ) :=
  ⟨by decide, C5_rotate90_then_270 buf2x1 (by decide)⟩

/-- C6: applying `negative` twice returns an image equal to the original at
every pixel (`negative` is an exact involution on 8-bit channels). -/
theorem C6_negative_involution (b : PixBuf) (hb : WF b) :
    ∃ b2, (negative b).bind negative = some b2 ∧
      b2.width = b.width ∧ b2.height = b.height ∧
      ∀ x, x < b.width → ∀ y, y < b.height →
        pget b2 (x : ℤ) (y : ℤ) = pget b (x : ℤ) (y : ℤ) := by
  have h1 : negative b = some (mkBuf (gnegative b) b.width b.height) := negative_eq b hb
  have hb1 : WF (mkBuf (gnegative b) b.width b.height) := by
    apply WF_mkBuf
    intro x hx y hy
    unfold gnegative
    dsimp only
    exact ⟨by omega, by omega, by omega⟩
  have h2 := negative_eq (mkBuf (gnegative b) b.width b.height) hb1
  refine ⟨mkBuf (gnegative (mkBuf (gnegative b) b.width b.height)) b.width b.height,
    by rw [h1]; simpa using h2, rfl, rfl, ?_⟩
  intro x hx y hy
  rw [pget_mkBuf _ _ _ x y hx hy]
  have key : gnegative (mkBuf (gnegative b) b.width b.height) x y = sourcePix b x y := by
    have hmid : sourcePix (mkBuf (gnegative b) b.width b.height) (x : ℤ) (y : ℤ) =
        gnegative b x y :=
      sourcePix_mkBuf (gnegative b) b.width b.height x y hx hy
    unfold gnegative
    dsimp only
    unfold gnegative at hmid
    dsimp only at hmid
    rw [hmid]
    dsimp only
    obtain ⟨h255a, h255b, h255c⟩ := sourcePix_le hb x y hx hy
    have hinv : ∀ n : ℕ, n ≤ 255 → 0xFF - (0xFF - n) = n := fun n hn => by omega
    rw [hinv _ h255a, hinv _ h255b, hinv _ h255c]
  rw [key, pget_coe_eq hb x y hx hy]

/-- Witness for C6 at a concrete image. -/
theorem C6_negative_involution_witness :
    WF bufA ∧
      ∃ b2, (negative bufA).bind negative = some b2 ∧
        b2.width = bufA.width ∧ b2.height = bufA.height ∧
        ∀ x, x < bufA.width → ∀ y, y < bufA.height →
          pget b2 (x : ℤ) (y : ℤ) = pget bufA (x : ℤ) (y : ℤ) :=
  ⟨by decide, C6_negative_involution bufA (by decide)⟩

/-- C7: for every input image and `bitsPerChannel` in `[0, 8]`,
`reduce_bit_depth` ANDs each 8-bit channel with the mask
`((1 <<< bits) - 1) <<< (8 - bits)`, truncating low-order bits. -/
theorem C7_reduce_bit_depth (b : PixBuf) (bits : ℤ) (hb : WF b)
    (h0 : 0 ≤ bits) (h8 : bits ≤ 8) :
    ∃ out, reduce_bit_depth b bits = some out ∧
      ∀ x, x < b.width → ∀ y, y < b.height →
        pget out (x : ℤ) (y : ℤ) =
          some ((sourcePix b x y).1 &&& ((((1 : ℕ) <<< bits.toNat) - 1) <<< (8 - bits.toNat)),
            (sourcePix b x y).2.1 &&& ((((1 : ℕ) <<< bits.toNat) - 1) <<< (8 - bits.toNat)),
            (sourcePix b x y).2.2 &&& ((((1 : ℕ) <<< bits.toNat) - 1) <<< (8 - bits.toNat))) := by
  refine ⟨_, reduce_eq b bits hb h0 h8, ?_⟩
  intro x hx y hy
  rw [pget_mkBuf _ _ _ x y hx hy]
  rfl

/-- Witness for C7: `reduce_bit_depth 1` maps the pixel `(200, 100, 50)`
to `(128, 0, 0)` via the mask `0b10000000 = 128`. -/
theorem C7_reduce_bit_depth_witness :
    WF bufA ∧ (0 : ℤ) ≤ 1 ∧ (1 : ℤ) ≤ 8 ∧
      ((((1 : ℕ) <<< (1 : ℤ).toNat) - 1) <<< (8 - (1 : ℤ).toNat)) = 128 ∧
      ∃ out, reduce_bit_depth bufA 1 = some out ∧
        pget out ((0 : ℕ) : ℤ) ((0 : ℕ) : ℤ) = some (128, 0, 0) := by
  refine ⟨by decide, by decide, by decide, by decide, ?_⟩
  obtain ⟨out, hout, hpx⟩ := C7_reduce_bit_depth bufA 1 (by decide) (by decide) (by decide)
  exact ⟨out, hout, (hpx 0 (by decide) 0 (by decide)).trans (by decide)⟩

/-- The dimension round trip behind C8: for a factor `f ≥ 1`, rounding a
width through `scale` by `f` and back by `1/f` moves it by at most one. -/
theorem scaleDim_roundtrip (n : ℕ) (f : ℚ) (hf : 1 ≤ f) :
    (((scaleDim (scaleDim n f).toNat (1 / f)).toNat : ℤ) - (n : ℤ)).natAbs ≤ 1 := by
  have hf0 : (0 : ℚ) < f := lt_of_lt_of_le one_pos hf
  have hd0 : 0 ≤ scaleDim n f :=
    pyround_nonneg _ (mul_nonneg (Nat.cast_nonneg _) hf0.le)
  set d : ℤ := scaleDim n f with hd
  have hdq : ((d.toNat : ℕ) : ℚ) = (d : ℚ) := by
    have h := Int.toNat_of_nonneg hd0
    exact_mod_cast congrArg (fun z : ℤ => (z : ℚ)) h
  have heq : scaleDim d.toNat (1 / f) = pyround ((d : ℚ) * (1 / f)) := by
    unfold scaleDim
    rw [hdq]
  have h1 : |(d : ℚ) - (n : ℚ) * f| ≤ 1 / 2 := by
    have h := pyround_sub_abs_le ((n : ℚ) * f)
    simpa [hd, scaleDim, mul_comm] using h
  have h2 : |(pyround ((d : ℚ) * (1 / f)) : ℚ) - (d : ℚ) * (1 / f)| ≤ 1 / 2 :=
    pyround_sub_abs_le _
  have h3 : |(d : ℚ) * (1 / f) - (n : ℚ)| ≤ 1 / 2 := by
    have key : (d : ℚ) * (1 / f) - (n : ℚ) = ((d : ℚ) - (n : ℚ) * f) / f := by
      field_simp
      ring
    rw [key, abs_div, abs_of_pos hf0]
    have hstep : |(d : ℚ) - (n : ℚ) * f| / f ≤ (1 / 2) / f :=
      (div_le_div_right hf0).mpr h1
    have hstep2 : (1 / 2 : ℚ) / f ≤ 1 / 2 := div_le_self (by norm_num) hf
    linarith
  have h4 : |(pyround ((d : ℚ) * (1 / f)) : ℚ) - (n : ℚ)| ≤ 1 := by
    calc |(pyround ((d : ℚ) * (1 / f)) : ℚ) - (n : ℚ)|
        ≤ |(pyround ((d : ℚ) * (1 / f)) : ℚ) - (d : ℚ) * (1 / f)| +
          |(d : ℚ) * (1 / f) - (n : ℚ)| := abs_sub_le _ _ _
      _ ≤ 1 / 2 + 1 / 2 := add_le_add h2 h3
      _ = 1 := by norm_num
  have he0 : 0 ≤ pyround ((d : ℚ) * (1 / f)) := by
    apply pyround_nonneg
    exact mul_nonneg (by exact_mod_cast hd0) (le_of_lt (one_div_pos.mpr hf0))
  rw [heq, Int.toNat_of_nonneg he0]
  have h5 : |((pyround ((d : ℚ) * (1 / f)) - (n : ℤ) : ℤ) : ℚ)| ≤ 1 := by
    push_cast
    exact h4
  have h6 : ((pyround ((d : ℚ) * (1 / f)) - (n : ℤ)).natAbs : ℚ) ≤ 1 := by
    rw [Int.cast_natAbs, Int.cast_abs]
    exact h5
  exact_mod_cast h6

/-- C8 (amended): for every image and factor `f ≥ 1`, scaling by `f` and
then by `1/f` under nearest-neighbor `scale` yields output dimensions
`round(round(dim×f)×(1/f))` within ±1 of the original; for factors below 1
the bound can fail (see the counterexample). -/
theorem C8_scale_roundtrip_dims (b : PixBuf) (f : ℚ) (hb : WF b) (hf : 1 ≤ f) :
    ∃ b1 b2, scale b f f = some b1 ∧ scale b1 (1 / f) (1 / f) = some b2 ∧
      ((b2.width : ℤ) - (b.width : ℤ)).natAbs ≤ 1 ∧
      ((b2.height : ℤ) - (b.height : ℤ)).natAbs ≤ 1 := by
  have hf0 : (0 : ℚ) < f := lt_of_lt_of_le one_pos hf
  have hfne : f ≠ 0 := ne_of_gt hf0
  have hifne : 1 / f ≠ 0 := one_div_ne_zero hfne
  have hW1 : 0 ≤ scaleDim b.width f :=
    pyround_nonneg _ (mul_nonneg (Nat.cast_nonneg _) hf0.le)
  have hH1 : 0 ≤ scaleDim b.height f :=
    pyround_nonneg _ (mul_nonneg (Nat.cast_nonneg _) hf0.le)
  have h1 := scale_eq b f f hb hfne hfne hW1 hH1
  have hb1 : WF (mkBuf (gscale b f f) (scaleDim b.width f).toNat (scaleDim b.height f).toNat) := by
    apply WF_mkBuf
    intro x hx y hy
    unfold gscale
    dsimp only
    split_ifs with h
    · exact (pget_eq_some_sourcePix hb h.1 h.2.1 h.2.2.1 h.2.2.2).2
    · exact ⟨by decide, by decide, by decide⟩
  have hW2 : 0 ≤ scaleDim (mkBuf (gscale b f f) (scaleDim b.width f).toNat
      (scaleDim b.height f).toNat).width (1 / f) :=
    pyround_nonneg _ (mul_nonneg (Nat.cast_nonneg _) (le_of_lt (one_div_pos.mpr hf0)))
  have hH2 : 0 ≤ scaleDim (mkBuf (gscale b f f) (scaleDim b.width f).toNat
      (scaleDim b.height f).toNat).height (1 / f) :=
    pyround_nonneg _ (mul_nonneg (Nat.cast_nonneg _) (le_of_lt (one_div_pos.mpr hf0)))
  have h2 := scale_eq _ (1 / f) (1 / f) hb1 hifne hifne hW2 hH2
  exact ⟨_, _, h1, h2, scaleDim_roundtrip b.width f hf, scaleDim_roundtrip b.height f hf⟩

/-- Witness for C8 (amended) at a concrete image and factor 2. -/
theorem C8_scale_roundtrip_dims_witness :
    WF bufA ∧ (1 : ℚ) ≤ 2 ∧
      ∃ b1 b2, scale bufA 2 2 = some b1 ∧ scale b1 (1 / 2) (1 / 2) = some b2 ∧
        ((b2.width : ℤ) - (bufA.width : ℤ)).natAbs ≤ 1 ∧
        ((b2.height : ℤ) - (bufA.height : ℤ)).natAbs ≤ 1 :=
  ⟨by decide, by decide, C8_scale_roundtrip_dims bufA 2 (by decide) (by decide)⟩

/-- C8 counterexample: for the valid factor `f = 1/10` and source width 14,
scaling by `f` and then by `1/f = 10` yields width 10, which differs from
14 by 4 — the claimed ±1 bound fails for small factors. -/
theorem C8_counterexample :
    ((scale buf14 (1 / 10) (1 / 10)).bind fun c => scale c 10 10).map PixBuf.width =
      some 10 ∧ 1 < ((10 : ℤ) - (14 : ℤ)).natAbs := by decide

/-- C9: for every non-empty source, positive factors and destination
coordinate, `scale_bilinear` clamps each of the four neighbor coordinates
independently into `[0, dim-1]` before sampling, so it only reads
in-bounds pixels and the whole operation never fails. -/
theorem C9_bilinear_inbounds (b : PixBuf) (xf yf : ℚ) (hb : WF b)
    (hw : 1 ≤ b.width) (hh : 1 ≤ b.height) (hxf : 0 < xf) (hyf : 0 < yf) :
    (∀ v maxV : ℤ, 0 ≤ maxV → 0 ≤ clamp v maxV ∧ clamp v maxV ≤ maxV) ∧
      (scale_bilinear b xf yf).isSome = true := by
  refine ⟨fun v maxV h => clamp_mem v maxV h, ?_⟩
  have hwz : (1 : ℤ) ≤ (b.width : ℤ) := by exact_mod_cast hw
  have hhz : (1 : ℤ) ≤ (b.height : ℤ) := by exact_mod_cast hh
  have hpg : ∀ u v : ℤ, ∃ c,
      pget b (clamp u ((b.width : ℤ) - 1)) (clamp v ((b.height : ℤ) - 1)) = some c := by
    intro u v
    obtain ⟨hu0, hu1⟩ := clamp_mem u ((b.width : ℤ) - 1) (by omega)
    obtain ⟨hv0, hv1⟩ := clamp_mem v ((b.height : ℤ) - 1) (by omega)
    exact ⟨_, (pget_eq_some_sourcePix hb hu0 (by omega) hv0 (by omega)).1⟩
  unfold scale_bilinear
  apply transform_pixels_isSome _ _ _
    (pyround_nonneg _ (mul_nonneg (Nat.cast_nonneg _) hxf.le))
    (pyround_nonneg _ (mul_nonneg (Nat.cast_nonneg _) hyf.le))
  intro x hx y hy
  rw [if_neg (not_or.mpr ⟨ne_of_gt hxf, ne_of_gt hyf⟩)]
  obtain ⟨c00, h00⟩ := hpg ⌊(x : ℚ) / xf⌋ ⌊(y : ℚ) / yf⌋
  obtain ⟨c10, h10⟩ := hpg (⌊(x : ℚ) / xf⌋ + 1) ⌊(y : ℚ) / yf⌋
  obtain ⟨c01, h01⟩ := hpg ⌊(x : ℚ) / xf⌋ (⌊(y : ℚ) / yf⌋ + 1)
  obtain ⟨c11, h11⟩ := hpg (⌊(x : ℚ) / xf⌋ + 1) (⌊(y : ℚ) / yf⌋ + 1)
  simp [h00, h10, h01, h11]

/-- Witness for C9 at a concrete image and unit factors. -/
theorem C9_bilinear_inbounds_witness :
    WF bufA ∧ 1 ≤ bufA.width ∧ 1 ≤ bufA.height ∧ (0 : ℚ) < 1 ∧ (0 : ℚ) < 1 ∧
      ((∀ v maxV : ℤ, 0 ≤ maxV → 0 ≤ clamp v maxV ∧ clamp v maxV ≤ maxV) ∧
        (scale_bilinear bufA 1 1).isSome = true) :=
  ⟨by decide, by decide, by decide, by decide, by decide,
    C9_bilinear_inbounds bufA 1 1 (by decide) (by decide) (by decide) (by decide) (by decide)⟩


end ImgUtil
